import Mathlib

/-!
Shallow embedding of the SCAN (elevator) disk-scheduling solver from
`src/algorithms/scan.ts` (`computeSCAN`), together with theorems checking
the specification's claims about it.

Tracks are modelled as `Int` (the solver processes out-of-range and
negative values with the same arithmetic; distances use `Math.abs`,
embedded as `|·|` on `Int`).
-/

namespace ScanDisk

/-- `ScanDirection` from scan.ts: `"right" | "left"`. -/
inductive ScanDirection where
  | right : ScanDirection
  | left : ScanDirection
deriving DecidableEq, Repr

/-- One entry of `stepsTriples` in scan.ts: `{ from, to, dist }`.
`from` is a reserved word in Lean, so the fields are `fromPos`/`toPos`. -/
structure SeekStep where
  fromPos : Int
  toPos : Int
  dist : Int
deriving DecidableEq, Repr

/-- The `ScanOutput` interface from scan.ts. -/
structure ScanOutput where
  seekSequence : List Int
  totalOverheadMovement : Int
  stepsExpression : String
  stepsValues : String
  stepsDetailed : String
deriving DecidableEq, Repr

/-- Ascending numeric sort, embedding `right.sort((a, b) => a - b)`.
On integers any correct sort produces the same list, so insertion sort
is an exact model. -/
def sortAsc (l : List Int) : List Int :=
  List.insertionSort (· ≤ ·) l

/-- Descending numeric sort, embedding `left.sort((a, b) => b - a)`. -/
def sortDesc (l : List Int) : List Int :=
  List.insertionSort (· ≥ ·) l

/-- The position of the head after sequentially servicing `tracks`
starting from `cur` (the final value of `currentPosition` in a service
loop of scan.ts). -/
def finalPos (cur : Int) : List Int → Int
  | [] => cur
  | t :: ts => finalPos t ts

/-- One service loop of scan.ts: starting at `cur`, service each track in
order, recording `{ from: currentPosition, to: track, dist: |from - to| }`
and advancing `currentPosition`. -/
def serviceSteps (cur : Int) : List Int → List SeekStep
  | [] => []
  | t :: ts => SeekStep.mk cur t |cur - t| :: serviceSteps t ts

/-- The full list of tracks the head travels to, in order (the `visited`
array of scan.ts).  For direction `right`: the ascending "right" group,
then the boundary track `maxCylinder` if the head is not already there
(the `if (currentPosition !== maxCylinder)` guard), then the descending
"left" group.  After that conditional boundary move the head is at
`maxCylinder` in either case, which is why the left group is serviced
from `maxCylinder`.  Direction `left` is symmetric with boundary `0`. -/
def route (requests : List Int) (headPos : Int) (dir : ScanDirection)
    (maxCylinder : Int) : List Int :=
  let low := sortDesc (requests.filter (fun t => t < headPos))
  let high := sortAsc (requests.filter (fun t => headPos < t))
  match dir with
  | .right =>
      high ++ (if finalPos headPos high = maxCylinder then [] else [maxCylinder]) ++ low
  | .left =>
      low ++ (if finalPos headPos low = 0 then [] else [(0 : Int)]) ++ high

/-- Formatting of one `exprParts` entry: `(${large} - ${small})`. -/
def exprPart (s : SeekStep) : String :=
  "(" ++ toString (max s.fromPos s.toPos) ++ " - " ++ toString (min s.fromPos s.toPos) ++ ")"

/-- Formatting of one `detailedParts` entry: `(${large} - ${small}) = ${dist}`. -/
def detailedPart (s : SeekStep) : String :=
  "(" ++ toString (max s.fromPos s.toPos) ++ " - " ++ toString (min s.fromPos s.toPos) ++
    ") = " ++ toString s.dist

/-- Embedding of `computeSCAN` from scan.ts.  The `stepsTriples` array is
`serviceSteps headPos (route ...)`: in the source, each push to `visited`
is paired with a push of `{ from: currentPosition, to: track, dist }` to
`stepsTriples` and `totalOverheadMovement += dist`, for the right group,
the conditional boundary move and the left group in order (or the
symmetric order for direction `left`). -/
def computeSCAN (requests : List Int) (headPos : Int) (dir : ScanDirection)
    (maxCylinder : Int) : ScanOutput :=
  let steps := serviceSteps headPos (route requests headPos dir maxCylinder)
  { seekSequence := headPos :: steps.map SeekStep.toPos
    totalOverheadMovement := (steps.map SeekStep.dist).sum
    stepsExpression := String.intercalate " + " (steps.map exprPart)
    stepsValues := String.intercalate " + " (steps.map (fun s => toString s.dist))
    stepsDetailed := String.intercalate " + " (steps.map detailedPart) }

/-- Sum of `|seq[i+1] - seq[i]|` over consecutive pairs of a track list,
used to state the spec's total-movement guarantee. -/
def pairDists (seq : List Int) : Int :=
  ((seq.zip seq.tail).map (fun p => |p.1 - p.2|)).sum

/-- The trace term the spec prescribes for one movement step
`(max(from,to) - min(from,to)) = distance`, as a function of the pair. -/
def pairDetailed (p : Int × Int) : String :=
  "(" ++ toString (max p.1 p.2) ++ " - " ++ toString (min p.1 p.2) ++ ") = " ++
    toString |p.1 - p.2|

/-! ### Structural lemmas about the embedding -/

lemma serviceSteps_map_toPos (cur : Int) (l : List Int) :
    (serviceSteps cur l).map SeekStep.toPos = l := by
  induction l generalizing cur with
  | nil => rfl
  | cons t ts ih => simp [serviceSteps, ih]

lemma serviceSteps_eq_zip (cur : Int) (l : List Int) :
    serviceSteps cur l =
      ((cur :: l).zip l).map (fun p => SeekStep.mk p.1 p.2 |p.1 - p.2|) := by
  induction l generalizing cur with
  | nil => rfl
  | cons t ts ih => simp [serviceSteps, List.zip, ih]

lemma seekSequence_eq (requests : List Int) (headPos : Int) (dir : ScanDirection)
    (maxCylinder : Int) :
    (computeSCAN requests headPos dir maxCylinder).seekSequence =
      headPos :: route requests headPos dir maxCylinder := by
  simp [computeSCAN, serviceSteps_map_toPos]

lemma sum_dist_eq (cur : Int) (l : List Int) :
    ((serviceSteps cur l).map SeekStep.dist).sum = pairDists (cur :: l) := by
  rw [serviceSteps_eq_zip]
  simp [pairDists, List.map_map, Function.comp_def]

lemma total_eq (requests : List Int) (headPos : Int) (dir : ScanDirection)
    (maxCylinder : Int) :
    (computeSCAN requests headPos dir maxCylinder).totalOverheadMovement =
      pairDists (computeSCAN requests headPos dir maxCylinder).seekSequence := by
  rw [seekSequence_eq]
  exact sum_dist_eq headPos (route requests headPos dir maxCylinder)

lemma mem_sortAsc {x : Int} {l : List Int} : x ∈ sortAsc l ↔ x ∈ l :=
  List.mem_insertionSort _

lemma mem_sortDesc {x : Int} {l : List Int} : x ∈ sortDesc l ↔ x ∈ l :=
  List.mem_insertionSort _

lemma length_sortAsc (l : List Int) : (sortAsc l).length = l.length :=
  List.length_insertionSort _ l

lemma length_sortDesc (l : List Int) : (sortDesc l).length = l.length :=
  List.length_insertionSort _ l

lemma finalPos_mem (cur : Int) (l : List Int) (h : l ≠ []) : finalPos cur l ∈ l := by
  induction l generalizing cur with
  | nil => exact absurd rfl h
  | cons t ts ih =>
    cases ts with
    | nil => simp [finalPos]
    | cons u us => simpa [finalPos] using Or.inr (ih t (by simp))

lemma length_filter_split (l : List Int) (h : Int) :
    (l.filter (fun t => t < h)).length + (l.filter (fun t => h < t)).length =
      (l.filter (fun t => t ≠ h)).length := by
  induction l with
  | nil => rfl
  | cons a as ih =>
    simp only [List.filter_cons]
    simp only [ne_eq, decide_not] at ih ⊢
    rcases lt_trichotomy a h with h1 | h1 | h1
    · have h2 : ¬ h < a := by omega
      have h3 : ¬ (a = h) := by omega
      simp [h1, h2, h3]
      omega
    · subst h1
      have h2 : ¬ a < a := lt_irrefl a
      simpa [h2] using ih
    · have h2 : ¬ a < h := by omega
      have h3 : ¬ (a = h) := by omega
      simp [h1, h2, h3]
      omega

lemma total_def (requests : List Int) (headPos : Int) (dir : ScanDirection)
    (maxCylinder : Int) :
    (computeSCAN requests headPos dir maxCylinder).totalOverheadMovement =
      ((serviceSteps headPos (route requests headPos dir maxCylinder)).map
        SeekStep.dist).sum := rfl

lemma stepsDetailed_def (requests : List Int) (headPos : Int) (dir : ScanDirection)
    (maxCylinder : Int) :
    (computeSCAN requests headPos dir maxCylinder).stepsDetailed =
      String.intercalate " + "
        ((serviceSteps headPos (route requests headPos dir maxCylinder)).map
          detailedPart) := rfl

lemma filter_lt_of_ne (l : List Int) (h : Int) :
    (l.filter (fun t => t ≠ h)).filter (fun t => t < h) = l.filter (fun t => t < h) := by
  rw [List.filter_filter]
  congr 1
  funext x
  by_cases hx : x < h
  · have hne : x ≠ h := by omega
    simp [hx, hne]
  · simp [hx]

lemma filter_gt_of_ne (l : List Int) (h : Int) :
    (l.filter (fun t => t ≠ h)).filter (fun t => h < t) = l.filter (fun t => h < t) := by
  rw [List.filter_filter]
  congr 1
  funext x
  by_cases hx : h < x
  · have hne : x ≠ h := by omega
    simp [hx, hne]
  · simp [hx]

lemma route_filter_ne (requests : List Int) (headPos : Int) (dir : ScanDirection)
    (maxCylinder : Int) :
    route (requests.filter (fun t => t ≠ headPos)) headPos dir maxCylinder =
      route requests headPos dir maxCylinder := by
  cases dir <;> simp only [route, filter_lt_of_ne, filter_gt_of_ne]

lemma sorted_sortAsc (l : List Int) : List.Sorted (· ≤ ·) (sortAsc l) :=
  List.sorted_insertionSort _ l

lemma sorted_sortDesc (l : List Int) : List.Sorted (· ≥ ·) (sortDesc l) :=
  List.sorted_insertionSort _ l

lemma count_sortAsc (m : Int) (l : List Int) : (sortAsc l).count m = l.count m :=
  (List.perm_insertionSort _ l).count_eq m

lemma count_sortDesc (m : Int) (l : List Int) : (sortDesc l).count m = l.count m :=
  (List.perm_insertionSort _ l).count_eq m

lemma count_filter_le (m : Int) (p : Int → Bool) (l : List Int) :
    (l.filter p).count m ≤ l.count m :=
  (List.filter_sublist l).count_le m

lemma finalPos_concat (cur x : Int) (l : List Int) : finalPos cur (l ++ [x]) = x := by
  induction l generalizing cur with
  | nil => rfl
  | cons t ts ih => simpa [finalPos] using ih t

lemma sorted_split_max {l : List Int} {m : Int} (hs : List.Sorted (· ≤ ·) l)
    (hub : ∀ x ∈ l, x ≤ m) (hm : m ∈ l) (hc : l.count m ≤ 1) :
    ∃ pre, l = pre ++ [m] ∧ m ∉ pre := by
  induction l with
  | nil => cases hm
  | cons a t ih =>
    rw [List.sorted_cons] at hs
    cases t with
    | nil =>
      have : m = a := by simpa using hm
      exact ⟨[], by simp [this], by simp⟩
    | cons b u =>
      rcases List.mem_cons.1 hm with rfl | hmt
      · by_cases hmt : m ∈ b :: u
        · exfalso
          have e1 : (m :: b :: u).count m = (b :: u).count m + 1 :=
            List.count_cons_self m (b :: u)
          have e2 : 0 < (b :: u).count m := List.count_pos_iff.2 hmt
          omega
        · exfalso
          have hb : b ∈ b :: u := by simp
          have h1 : m ≤ b := hs.1 b hb
          have h2 : b ≤ m := hub b (by simp)
          exact hmt (by simp [le_antisymm h2 h1])
      · have ha : a ≠ m := by
          intro h
          subst h
          have e1 : (a :: b :: u).count a = (b :: u).count a + 1 :=
            List.count_cons_self a (b :: u)
          have e2 : 0 < (b :: u).count a := List.count_pos_iff.2 hmt
          omega
        have hc' : (b :: u).count m ≤ 1 := by
          have e3 : (a :: b :: u).count m = (b :: u).count m + if a = m then 1 else 0 := by
            simp [List.count_cons]
          rw [e3] at hc
          omega
        obtain ⟨pre, hpre, hnm⟩ := ih hs.2 (fun x hx => hub x (by simp [hx])) hmt hc'
        exact ⟨a :: pre, by simp [hpre], by simp [hnm, Ne.symm ha]⟩

lemma sorted_split_min {l : List Int} {m : Int} (hs : List.Sorted (· ≥ ·) l)
    (hlb : ∀ x ∈ l, m ≤ x) (hm : m ∈ l) (hc : l.count m ≤ 1) :
    ∃ pre, l = pre ++ [m] ∧ m ∉ pre := by
  induction l with
  | nil => cases hm
  | cons a t ih =>
    rw [List.sorted_cons] at hs
    cases t with
    | nil =>
      have : m = a := by simpa using hm
      exact ⟨[], by simp [this], by simp⟩
    | cons b u =>
      rcases List.mem_cons.1 hm with rfl | hmt
      · by_cases hmt : m ∈ b :: u
        · exfalso
          have e1 : (m :: b :: u).count m = (b :: u).count m + 1 :=
            List.count_cons_self m (b :: u)
          have e2 : 0 < (b :: u).count m := List.count_pos_iff.2 hmt
          omega
        · exfalso
          have hb : b ∈ b :: u := by simp
          have h1 : b ≤ m := hs.1 b hb
          have h2 : m ≤ b := hlb b (by simp)
          exact hmt (by simp [le_antisymm h1 h2])
      · have ha : a ≠ m := by
          intro h
          subst h
          have e1 : (a :: b :: u).count a = (b :: u).count a + 1 :=
            List.count_cons_self a (b :: u)
          have e2 : 0 < (b :: u).count a := List.count_pos_iff.2 hmt
          omega
        have hc' : (b :: u).count m ≤ 1 := by
          have e3 : (a :: b :: u).count m = (b :: u).count m + if a = m then 1 else 0 := by
            simp [List.count_cons]
          rw [e3] at hc
          omega
        obtain ⟨pre, hpre, hnm⟩ := ih hs.2 (fun x hx => hlb x (by simp [hx])) hmt hc'
        exact ⟨a :: pre, by simp [hpre], by simp [hnm, Ne.symm ha]⟩

lemma count_of_split {seq : List Int} {h m : Int} {pre post : List Int}
    (he : seq = h :: (pre ++ m :: post)) (h1 : h ≠ m) (h2 : m ∉ pre) (h3 : m ∉ post) :
    seq.count m = 1 := by
  subst he
  have e1 : pre.count m = 0 := List.count_eq_zero.2 h2
  have e2 : post.count m = 0 := List.count_eq_zero.2 h3
  simp [List.count_cons, List.count_append, e1, e2, Ne.symm h1]

/-! ### Claim theorems -/

/-- Claim C3: for every non-empty request set (any head, direction and
disk bound), the returned `totalOverheadMovement` equals the sum of
`|seekSequence[i+1] - seekSequence[i]|` over all consecutive pairs of the
returned `seekSequence`. -/
theorem claim_C3_total_is_sum_of_consecutive_distances
    (requests : List Int) (headPos : Int) (dir : ScanDirection) (maxCylinder : Int)
    (hne : requests ≠ []) :
    (computeSCAN requests headPos dir maxCylinder).totalOverheadMovement =
      pairDists (computeSCAN requests headPos dir maxCylinder).seekSequence :=
  total_eq requests headPos dir maxCylinder

/-- Witness for claim C3, instantiated at scenario A of the spec. -/
theorem claim_C3_witness :
    ([(82 : Int), 170, 43, 140, 24, 16, 190] ≠ []) ∧
    (computeSCAN [82, 170, 43, 140, 24, 16, 190] 50 .right 199).totalOverheadMovement =
      pairDists (computeSCAN [82, 170, 43, 140, 24, 16, 190] 50 .right 199).seekSequence :=
  ⟨by decide,
    claim_C3_total_is_sum_of_consecutive_distances
      [82, 170, 43, 140, 24, 16, 190] 50 .right 199 (by decide)⟩

/-- Claim C4: every request value not exactly equal to head appears in the
returned `seekSequence` at least once, and request values exactly equal to
head are not separately listed (removing them from the input leaves the
output unchanged). -/
theorem claim_C4_offhead_requests_serviced
    (requests : List Int) (headPos : Int) (dir : ScanDirection) (maxCylinder : Int) :
    (∀ r ∈ requests, r ≠ headPos →
        r ∈ (computeSCAN requests headPos dir maxCylinder).seekSequence)
    ∧ computeSCAN (requests.filter (fun t => t ≠ headPos)) headPos dir maxCylinder =
        computeSCAN requests headPos dir maxCylinder := by
  constructor
  · intro r hr hne
    rw [seekSequence_eq]
    rcases lt_or_gt_of_ne hne with h1 | h1
    · have hm : r ∈ sortDesc (requests.filter (fun t => t < headPos)) :=
        mem_sortDesc.2 (List.mem_filter.2 ⟨hr, by simpa using h1⟩)
      cases dir <;> simp only [route, List.mem_cons, List.mem_append] <;> tauto
    · have hm : r ∈ sortAsc (requests.filter (fun t => headPos < t)) :=
        mem_sortAsc.2 (List.mem_filter.2 ⟨hr, by simpa using h1⟩)
      cases dir <;> simp only [route, List.mem_cons, List.mem_append] <;> tauto
  · simp only [computeSCAN, route_filter_ne]

/-- Witness for claim C4: request 82 of scenario A differs from head 50
and appears in the seek sequence. -/
theorem claim_C4_witness :
    (82 : Int) ∈ (computeSCAN [82, 170, 43, 140, 24, 16, 190] 50 .right 199).seekSequence :=
  (claim_C4_offhead_requests_serviced [82, 170, 43, 140, 24, 16, 190] 50 .right 199).1
    82 (by decide) (by decide)

/-- Claim C5: for every input, `seekSequence.length` equals `1` plus the
number of request occurrences not equal to head (duplicates counted once
per occurrence) plus `0` or `1` for the boundary step. -/
theorem claim_C5_sequence_length
    (requests : List Int) (headPos : Int) (dir : ScanDirection) (maxCylinder : Int) :
    ∃ b, b ≤ 1 ∧
      (computeSCAN requests headPos dir maxCylinder).seekSequence.length =
        1 + (requests.filter (fun t => t ≠ headPos)).length + b := by
  rw [seekSequence_eq]
  have hs := length_filter_split requests headPos
  cases dir with
  | right =>
    refine ⟨if finalPos headPos (sortAsc (requests.filter (fun t => headPos < t))) =
        maxCylinder then 0 else 1, ?_, ?_⟩
    · split <;> omega
    · simp only [route]
      split_ifs with hb <;>
        simp only [List.length_cons, List.length_append, List.length_nil,
          List.length_singleton, length_sortAsc, length_sortDesc] <;>
        omega
  | left =>
    refine ⟨if finalPos headPos (sortDesc (requests.filter (fun t => t < headPos))) =
        0 then 0 else 1, ?_, ?_⟩
    · split <;> omega
    · simp only [route]
      split_ifs with hb <;>
        simp only [List.length_cons, List.length_append, List.length_nil,
          List.length_singleton, length_sortAsc, length_sortDesc] <;>
        omega

/-- Claim C6: for every input, the first element of the returned
`seekSequence` equals head. -/
theorem claim_C6_sequence_starts_at_head
    (requests : List Int) (headPos : Int) (dir : ScanDirection) (maxCylinder : Int) :
    (computeSCAN requests headPos dir maxCylinder).seekSequence.head? = some headPos := by
  rw [seekSequence_eq]
  rfl

/-- Claim C7: for requests `[82,170,43,140,24,16,190]`, head `50`,
direction toward-larger and disk bound `199`, the seek sequence is exactly
`[50, 82, 140, 170, 190, 199, 43, 24, 16]`. -/
theorem claim_C7_scenario_A :
    (computeSCAN [82, 170, 43, 140, 24, 16, 190] 50 .right 199).seekSequence =
      [50, 82, 140, 170, 190, 199, 43, 24, 16] := by decide

/-- Claim C9: the solver is deterministic and stateless.  The embedding is
a pure function of its four arguments, so two invocations with identical
arguments agree on every output field. -/
theorem claim_C9_deterministic
    (requests : List Int) (headPos : Int) (dir : ScanDirection) (maxCylinder : Int) :
    (computeSCAN requests headPos dir maxCylinder).seekSequence =
        (computeSCAN requests headPos dir maxCylinder).seekSequence
    ∧ (computeSCAN requests headPos dir maxCylinder).totalOverheadMovement =
        (computeSCAN requests headPos dir maxCylinder).totalOverheadMovement
    ∧ (computeSCAN requests headPos dir maxCylinder).stepsExpression =
        (computeSCAN requests headPos dir maxCylinder).stepsExpression
    ∧ (computeSCAN requests headPos dir maxCylinder).stepsValues =
        (computeSCAN requests headPos dir maxCylinder).stepsValues
    ∧ (computeSCAN requests headPos dir maxCylinder).stepsDetailed =
        (computeSCAN requests headPos dir maxCylinder).stepsDetailed :=
  ⟨rfl, rfl, rfl, rfl, rfl⟩

/-- Claim C10 (implicit): the boundary sweep is unconditional on group
emptiness — for direction toward-larger the track `maxCylinder` always
appears in the returned `seekSequence`, and for direction toward-smaller
track `0` always appears, even when the request set is empty or no request
lies in the initial direction. -/
theorem claim_C10_boundary_always_reached
    (requests : List Int) (headPos : Int) (maxCylinder : Int) :
    maxCylinder ∈ (computeSCAN requests headPos .right maxCylinder).seekSequence
    ∧ (0 : Int) ∈ (computeSCAN requests headPos .left maxCylinder).seekSequence := by
  constructor
  · rw [seekSequence_eq]
    simp only [route, List.mem_cons, List.mem_append]
    by_cases hb : finalPos headPos (sortAsc (requests.filter (fun t => headPos < t))) =
        maxCylinder
    · rcases eq_or_ne (sortAsc (requests.filter (fun t => headPos < t))) [] with hh | hh
      · rw [hh] at hb
        simp only [finalPos] at hb
        exact Or.inl hb.symm
      · have hm := finalPos_mem headPos _ hh
        rw [hb] at hm
        tauto
    · simp [hb]
  · rw [seekSequence_eq]
    simp only [route, List.mem_cons, List.mem_append]
    by_cases hb : finalPos headPos (sortDesc (requests.filter (fun t => t < headPos))) = 0
    · rcases eq_or_ne (sortDesc (requests.filter (fun t => t < headPos))) [] with hh | hh
      · rw [hh] at hb
        simp only [finalPos] at hb
        exact Or.inl hb.symm
      · have hm := finalPos_mem headPos _ hh
        rw [hb] at hm
        tauto
    · simp [hb]

/-- Claim C1 counterexample: for `requests = []`, `head = 50`, direction
toward-larger, `diskBound = 199`, the code does NOT return `seekSequence
= [50]` with total movement `0`: the boundary sweep to `199` is emitted
even though nothing was serviced (the actual output is `[50, 199]` with
total movement `149`). -/
theorem claim_C1_counterexample :
    ¬ ((computeSCAN [] 50 .right 199).seekSequence = [50]
        ∧ (computeSCAN [] 50 .right 199).totalOverheadMovement = 0) := by decide

/-- Claim C1 amended: if no request is serviced (the request set is empty
or every request equals head), the seek sequence is `[head]` and total
movement is `0` only when head already sits at the initial direction's
boundary; otherwise a boundary sweep step is still emitted, giving
sequence `[head, boundary]` and total movement `|head - boundary|`
(boundary = `maxCylinder` for toward-larger, `0` for toward-smaller). -/
theorem claim_C1_amended_degenerate_input
    (requests : List Int) (headPos maxCylinder : Int)
    (hall : ∀ r ∈ requests, r = headPos) :
    ((computeSCAN requests headPos .right maxCylinder).seekSequence =
        if headPos = maxCylinder then [headPos] else [headPos, maxCylinder])
    ∧ ((computeSCAN requests headPos .right maxCylinder).totalOverheadMovement =
        |headPos - maxCylinder|)
    ∧ ((computeSCAN requests headPos .left maxCylinder).seekSequence =
        if headPos = 0 then [headPos] else [headPos, 0])
    ∧ ((computeSCAN requests headPos .left maxCylinder).totalOverheadMovement =
        |headPos|) := by
  have hlow : requests.filter (fun t => t < headPos) = [] := by
    rw [List.filter_eq_nil_iff]
    intro a ha
    have := hall a ha
    simp [this]
  have hhigh : requests.filter (fun t => headPos < t) = [] := by
    rw [List.filter_eq_nil_iff]
    intro a ha
    have := hall a ha
    simp [this]
  have hsl : sortDesc (requests.filter (fun t => t < headPos)) = [] := by
    rw [hlow]
    rfl
  have hsh : sortAsc (requests.filter (fun t => headPos < t)) = [] := by
    rw [hhigh]
    rfl
  have hr : route requests headPos .right maxCylinder =
      if headPos = maxCylinder then [] else [maxCylinder] := by
    simp [route, hsl, hsh, finalPos]
  have hl : route requests headPos .left maxCylinder =
      if headPos = 0 then [] else [(0 : Int)] := by
    simp [route, hsl, hsh, finalPos]
  refine ⟨?_, ?_, ?_, ?_⟩
  · rw [seekSequence_eq, hr]
    split_ifs <;> rfl
  · rw [total_def, hr]
    split_ifs with h
    · simp [serviceSteps, h]
    · simp [serviceSteps]
  · rw [seekSequence_eq, hl]
    split_ifs <;> rfl
  · rw [total_def, hl]
    split_ifs with h
    · simp [serviceSteps, h]
    · simp [serviceSteps]

/-- Witness for amended claim C1, instantiated at scenario C of the spec
(`requests = [50]`, `head = 50`, `diskBound = 100`). -/
theorem claim_C1_witness :
    (∀ r ∈ [(50 : Int)], r = 50) ∧
    ((computeSCAN [(50 : Int)] 50 .right 100).seekSequence =
        if (50 : Int) = 100 then [(50 : Int)] else [50, 100]) ∧
    ((computeSCAN [(50 : Int)] 50 .left 100).seekSequence =
        if (50 : Int) = 0 then [(50 : Int)] else [50, 0]) :=
  ⟨by decide,
    (claim_C1_amended_degenerate_input [(50 : Int)] 50 100 (by decide)).1,
    (claim_C1_amended_degenerate_input [(50 : Int)] 50 100 (by decide)).2.2.1⟩

/-- Claim C2 counterexample: with `requests = [199, 199]`, `head = 50`,
direction toward-larger and `diskBound = 199` (all values in range), the
boundary track `199` appears TWICE in the seek sequence (`[50, 199, 199]`),
not exactly once as the claim states. -/
theorem claim_C2_counterexample :
    ¬ ((computeSCAN [199, 199] 50 .right 199).seekSequence.count 199 = 1) := by decide

/-- Claim C2 amended: under the spec's preconditions (every request within
`[0, diskBound]`) and provided the boundary track occurs at most once among
the requests, if direction is toward-larger and some request exceeds head,
then `maxCylinder` appears in the seek sequence exactly once, after all
serviced "high" requests and before any "low" request (when the last
serviced high request is itself `maxCylinder`, that occurrence is the
request itself and no extra boundary step is emitted); symmetrically for
toward-smaller with boundary track `0`. -/
theorem claim_C2_amended_boundary_sweep_invariant
    (requests : List Int) (headPos maxCylinder : Int)
    (hrange : ∀ r ∈ requests, 0 ≤ r ∧ r ≤ maxCylinder) :
    ((∃ r ∈ requests, headPos < r) → requests.count maxCylinder ≤ 1 →
      (computeSCAN requests headPos .right maxCylinder).seekSequence.count maxCylinder = 1
      ∧ ∃ pre post,
          (computeSCAN requests headPos .right maxCylinder).seekSequence =
            headPos :: (pre ++ maxCylinder :: post)
          ∧ (∀ x ∈ pre, headPos < x) ∧ (∀ x ∈ post, x < headPos)
          ∧ maxCylinder ∉ pre ∧ maxCylinder ∉ post)
    ∧ ((∃ r ∈ requests, r < headPos) → requests.count 0 ≤ 1 →
      (computeSCAN requests headPos .left maxCylinder).seekSequence.count 0 = 1
      ∧ ∃ pre post,
          (computeSCAN requests headPos .left maxCylinder).seekSequence =
            headPos :: (pre ++ (0 : Int) :: post)
          ∧ (∀ x ∈ pre, x < headPos) ∧ (∀ x ∈ post, headPos < x)
          ∧ (0 : Int) ∉ pre ∧ (0 : Int) ∉ post) := by
  constructor
  · intro hex hcnt
    obtain ⟨r, hrmem, hrlt⟩ := hex
    have hmax : headPos < maxCylinder := lt_of_lt_of_le hrlt (hrange r hrmem).2
    set F := requests.filter (fun t => headPos < t) with hF
    set high := sortAsc F with hhigh
    set low := sortDesc (requests.filter (fun t => t < headPos)) with hlowdef
    have hrF : r ∈ F := List.mem_filter.2 ⟨hrmem, by simpa using hrlt⟩
    have hrhigh : r ∈ high := mem_sortAsc.2 hrF
    have hhne : high ≠ [] := List.ne_nil_of_mem hrhigh
    have hmemhigh : ∀ x ∈ high, headPos < x := by
      intro x hx
      have := List.mem_filter.1 (mem_sortAsc.1 hx)
      simpa using this.2
    have hubhigh : ∀ x ∈ high, x ≤ maxCylinder := by
      intro x hx
      exact (hrange x (List.mem_filter.1 (mem_sortAsc.1 hx)).1).2
    have hlowlt : ∀ x ∈ low, x < headPos := by
      intro x hx
      have := List.mem_filter.1 (mem_sortDesc.1 hx)
      simpa using this.2
    have hlownm : maxCylinder ∉ low := by
      intro hx
      have := hlowlt _ hx
      omega
    have hroute : route requests headPos .right maxCylinder =
        high ++ (if finalPos headPos high = maxCylinder then [] else [maxCylinder]) ++ low := by
      simp [route, hhigh, hF, hlowdef]
    by_cases hmem : maxCylinder ∈ high
    · have hchigh : high.count maxCylinder ≤ 1 := by
        have e1 : high.count maxCylinder = F.count maxCylinder := count_sortAsc _ _
        have e2 : F.count maxCylinder ≤ requests.count maxCylinder := count_filter_le _ _ _
        omega
      have hsorted : List.Sorted (· ≤ ·) high := by
        rw [hhigh]
        exact sorted_sortAsc F
      obtain ⟨pre, hpre, hnm⟩ := sorted_split_max hsorted hubhigh hmem hchigh
      have hfin : finalPos headPos high = maxCylinder := by
        rw [hpre]
        exact finalPos_concat _ _ _
      have hseq : (computeSCAN requests headPos .right maxCylinder).seekSequence =
          headPos :: (pre ++ maxCylinder :: low) := by
        rw [seekSequence_eq, hroute, hfin, hpre]
        simp
      refine ⟨count_of_split hseq (by omega) hnm hlownm, pre, low, hseq, ?_, hlowlt, hnm, hlownm⟩
      intro x hx
      exact hmemhigh x (by rw [hpre]; exact List.mem_append_left _ hx)
    · have hfin : finalPos headPos high ≠ maxCylinder := by
        intro h
        exact hmem (h ▸ finalPos_mem headPos high hhne)
      have hseq : (computeSCAN requests headPos .right maxCylinder).seekSequence =
          headPos :: (high ++ maxCylinder :: low) := by
        rw [seekSequence_eq, hroute]
        simp [hfin]
      exact ⟨count_of_split hseq (by omega) hmem hlownm, high, low, hseq,
        hmemhigh, hlowlt, hmem, hlownm⟩
  · intro hex hcnt
    obtain ⟨r, hrmem, hrlt⟩ := hex
    have hmin : 0 < headPos := lt_of_le_of_lt (hrange r hrmem).1 hrlt
    set F := requests.filter (fun t => t < headPos) with hF
    set low := sortDesc F with hlow
    set high := sortAsc (requests.filter (fun t => headPos < t)) with hhighdef
    have hrF : r ∈ F := List.mem_filter.2 ⟨hrmem, by simpa using hrlt⟩
    have hrlow : r ∈ low := mem_sortDesc.2 hrF
    have hlne : low ≠ [] := List.ne_nil_of_mem hrlow
    have hmemlow : ∀ x ∈ low, x < headPos := by
      intro x hx
      have := List.mem_filter.1 (mem_sortDesc.1 hx)
      simpa using this.2
    have hlblow : ∀ x ∈ low, (0 : Int) ≤ x := by
      intro x hx
      exact (hrange x (List.mem_filter.1 (mem_sortDesc.1 hx)).1).1
    have hhighgt : ∀ x ∈ high, headPos < x := by
      intro x hx
      have := List.mem_filter.1 (mem_sortAsc.1 hx)
      simpa using this.2
    have hhighnm : (0 : Int) ∉ high := by
      intro hx
      have := hhighgt _ hx
      omega
    have hroute : route requests headPos .left maxCylinder =
        low ++ (if finalPos headPos low = 0 then [] else [(0 : Int)]) ++ high := by
      simp [route, hhighdef, hF, hlow]
    by_cases hmem : (0 : Int) ∈ low
    · have hclow : low.count 0 ≤ 1 := by
        have e1 : low.count 0 = F.count 0 := count_sortDesc _ _
        have e2 : F.count 0 ≤ requests.count 0 := count_filter_le _ _ _
        omega
      have hsorted : List.Sorted (· ≥ ·) low := by
        rw [hlow]
        exact sorted_sortDesc F
      obtain ⟨pre, hpre, hnm⟩ := sorted_split_min hsorted hlblow hmem hclow
      have hfin : finalPos headPos low = 0 := by
        rw [hpre]
        exact finalPos_concat _ _ _
      have hseq : (computeSCAN requests headPos .left maxCylinder).seekSequence =
          headPos :: (pre ++ (0 : Int) :: high) := by
        rw [seekSequence_eq, hroute, hfin, hpre]
        simp
      refine ⟨count_of_split hseq (by omega) hnm hhighnm, pre, high, hseq, ?_, hhighgt, hnm, hhighnm⟩
      intro x hx
      exact hmemlow x (by rw [hpre]; exact List.mem_append_left _ hx)
    · have hfin : finalPos headPos low ≠ 0 := by
        intro h
        exact hmem (h ▸ finalPos_mem headPos low hlne)
      have hseq : (computeSCAN requests headPos .left maxCylinder).seekSequence =
          headPos :: (low ++ (0 : Int) :: high) := by
        rw [seekSequence_eq, hroute]
        simp [hfin]
      exact ⟨count_of_split hseq (by omega) hmem hhighnm, low, high, hseq,
        hmemlow, hhighgt, hmem, hhighnm⟩

/-- Witness for amended claim C2, instantiated at scenario A of the spec. -/
theorem claim_C2_witness :
    (computeSCAN [82, 170, 43, 140, 24, 16, 190] 50 .right 199).seekSequence.count 199 = 1
    ∧ ∃ pre post,
        (computeSCAN [82, 170, 43, 140, 24, 16, 190] 50 .right 199).seekSequence =
          50 :: (pre ++ (199 : Int) :: post)
        ∧ (∀ x ∈ pre, (50 : Int) < x) ∧ (∀ x ∈ post, x < (50 : Int))
        ∧ (199 : Int) ∉ pre ∧ (199 : Int) ∉ post :=
  (claim_C2_amended_boundary_sweep_invariant [82, 170, 43, 140, 24, 16, 190] 50 199
      (by decide)).1 (by decide) (by decide)

/-- Claim C8: for every input, the detailed trace string is one term per
movement step, each formatted as `(max(from,to) - min(from,to)) = distance`,
joined with `" + "` — the movement steps being exactly the consecutive
pairs of the returned seek sequence — and the distances appearing in the
trace sum to the returned total movement. -/
theorem claim_C8_detailed_trace
    (requests : List Int) (headPos : Int) (dir : ScanDirection) (maxCylinder : Int) :
    (computeSCAN requests headPos dir maxCylinder).stepsDetailed =
      String.intercalate " + "
        (((computeSCAN requests headPos dir maxCylinder).seekSequence.zip
            (computeSCAN requests headPos dir maxCylinder).seekSequence.tail).map
          pairDetailed)
    ∧ pairDists (computeSCAN requests headPos dir maxCylinder).seekSequence =
        (computeSCAN requests headPos dir maxCylinder).totalOverheadMovement := by
  constructor
  · rw [stepsDetailed_def, seekSequence_eq, serviceSteps_eq_zip]
    simp only [List.tail_cons, List.map_map]
    rfl
  · exact (total_eq requests headPos dir maxCylinder).symm

end ScanDisk
